import Mathlib

/-!
# sol `table_core` over a model of the embedded runtime's stack machine

`src/sol/table_core.hpp` is a dispatch surface over the Lua C API.  This file
embeds the class member by member over an explicit runtime state (operand
stack, table heap, reference registry, globals table) and proves stack
discipline, lookup dispatch, round trips and iteration properties about it.

Scope of the runtime model: tables are raw (no metatables, hence no
metamethods), numbers are integers, the operand stack is unbounded, and a
table is traversed in the order of its entry list.
-/

namespace sol

/-! ## Definitions: the runtime, the binding layer's collaborators, `table_core` -/

/-- A value of the embedded runtime.  Tables, functions and userdata are
identified by an object id (reference semantics). -/
inductive Value where
  | nil
  | boolean (b : Bool)
  | number (n : Int)
  | string (str : String)
  | table (id : Nat)
  | function (id : Nat)
  | userdata (id : Nat)
  deriving DecidableEq, Repr

/-- The `sol::type` tags that `lua_type` can report for the values above. -/
inductive type where
  | none
  | nil
  | boolean
  | number
  | string
  | table
  | function
  | userdata
  deriving DecidableEq, Repr

/-- The contents of one table: its key/value entries in traversal order. -/
abbrev Table := List (Value × Value)

/-- The state behind a `lua_State*`.  `stack` has the TOP of the stack at its
head; `heap` maps a table id (position) to the table's contents; `registry`
is the reference area of `luaL_ref` (reference `r ≥ 1` lives at position
`r - 1`); `globals` is the id of the globals table. -/
structure LuaState where
  stack : List Value
  heap : List Table
  registry : List Value
  globals : Nat
  deriving DecidableEq, Repr

/-- How a runtime call can fail to return. -/
inductive LuaError where
  /-- raised by `type_assert` -/
  | type_error (expected actual : type)
  /-- the runtime error "attempt to index a non-table value" -/
  | index_error
  /-- the runtime error "table index is nil" -/
  | nil_key
  /-- the runtime error "invalid key to next" -/
  | invalid_next
  /-- a precondition of the C API is broken (unacceptable index, popping
  below the bottom of the stack): undefined behaviour in C -/
  | api
  /-- the call does not compile: `&key[0]` on a key type with no `operator[]` -/
  | ill_formed
  /-- the loop budget of `for_each` ran out before the loop ended -/
  | fuel
  deriving DecidableEq, Repr

deriving instance DecidableEq for Except

/-- Modelled from the spec: the runtime's stack indexing.  Position, counted
from the top of a stack of height `n`, that the stack index `idx` names: negative indices count from the top (`-1` is the top),
positive ones from the bottom (`1` is the bottom). -/
def index2pos (n : Nat) (idx : Int) : Option Nat :=
  if idx < 0 then
    if (-idx).toNat ≤ n then some ((-idx).toNat - 1) else none
  else if 0 < idx ∧ idx.toNat ≤ n then some (n - idx.toNat)
  else none

/-- Modelled from the spec: the value at stack index `idx` of the runtime,
when the index names a stack slot. -/
def index2value (s : LuaState) (idx : Int) : Option Value :=
  match index2pos s.stack.length idx with
  | some p => s.stack[p]?
  | none => none

/-- Modelled from the spec: pushing one value on the stack (`lua_push*`). -/
def lua_push (s : LuaState) (v : Value) : LuaState :=
  { s with stack := v :: s.stack }

/-- Modelled from the spec: `lua_pop(L, n)` removes the `n` topmost values. -/
def lua_pop (s : LuaState) (n : Nat) : Except LuaError LuaState :=
  if n ≤ s.stack.length then .ok { s with stack := s.stack.drop n }
  else .error .api

/-- Modelled from the spec: `lua_type(L, idx)`. -/
def lua_type (s : LuaState) (idx : Int) : type :=
  match index2value s idx with
  | none => .none
  | some .nil => .nil
  | some (.boolean _) => .boolean
  | some (.number _) => .number
  | some (.string _) => .string
  | some (.table _) => .table
  | some (.function _) => .function
  | some (.userdata _) => .userdata

/-- Modelled from the spec: `lua_pushvalue(L, idx)` pushes a copy of the value
at `idx`; an index above the top is acceptable and reads as nil. -/
def lua_pushvalue (s : LuaState) (idx : Int) : Except LuaError LuaState :=
  match index2value s idx with
  | some v => .ok (lua_push s v)
  | none => if 0 < idx then .ok (lua_push s .nil) else .error .api

/-- Modelled from the spec: the runtime's raw read of a table, the value
stored at `k`, nil when there is none. -/
def rawget : Table → Value → Value
  | [], _ => .nil
  | (k', v) :: rest, k => if k' = k then v else rawget rest k

/-- Modelled from the spec: the runtime's raw write of a table; assigning nil
erases the key, assigning another value replaces the entry in place or
appends a new one. -/
def rawset : Table → Value → Value → Table
  | [], k, v => if v = .nil then [] else [(k, v)]
  | (k', v') :: rest, k, v =>
    if k' = k then (if v = .nil then rawset rest k v else (k, v) :: rest)
    else (k', v') :: rawset rest k v

/-- Modelled from the spec: the runtime's table traversal.  The entry that
follows key `k` in traversal order: `none` when `k` is not
a key of the table, `some none` when `k` is the last key. -/
def next_after : Table → Value → Option (Option (Value × Value))
  | [], _ => none
  | (k', _) :: rest, k => if k' = k then some rest.head? else next_after rest k

/-- Modelled from the spec: one step of the runtime's table traversal, from
nil the first entry, from a key the entry after it. -/
def table_next (t : Table) (k : Value) : Option (Option (Value × Value)) :=
  if k = .nil then some t.head? else next_after t k

/-- Modelled from the spec: the runtime's raw length of a table, the length of
the run of keys `start, start + 1, ...` present in it, searched over at most
`fuel` keys. -/
def border (t : Table) (start : Int) : Nat → Nat
  | 0 => 0
  | fuel + 1 => if rawget t (.number start) = .nil then 0 else border t (start + 1) fuel + 1

/-- Modelled from the spec: the runtime's indexing `t[k]` without
metamethods; only a live table can be indexed. -/
def index_value (s : LuaState) (t k : Value) : Except LuaError Value :=
  match t with
  | .table id =>
    match s.heap[id]? with
    | some tbl => .ok (rawget tbl k)
    | none => .error .api
  | _ => .error .index_error

/-- Modelled from the spec: the runtime's assignment `t[k] = v` without
metamethods; a nil key is an error. -/
def assign_value (s : LuaState) (t k v : Value) : Except LuaError LuaState :=
  match t with
  | .table id =>
    match s.heap[id]? with
    | some tbl =>
      if k = .nil then .error .nil_key
      else .ok { s with heap := s.heap.set id (rawset tbl k v) }
    | none => .error .api
  | _ => .error .index_error

/-- Modelled from the spec: `lua_gettable(L, idx)` replaces the key on top of
the stack by `t[key]`, `t` being the value at `idx`. -/
def lua_gettable (s : LuaState) (idx : Int) : Except LuaError LuaState :=
  match index2value s idx, s.stack with
  | some t, k :: rest =>
    match index_value s t k with
    | .ok v => .ok { s with stack := v :: rest }
    | .error e => .error e
  | _, _ => .error .api

/-- Modelled from the spec: `lua_settable(L, idx)` does `t[key] = value` with
the value on top and the key just below it, and pops both. -/
def lua_settable (s : LuaState) (idx : Int) : Except LuaError LuaState :=
  match index2value s idx, s.stack with
  | some t, v :: k :: rest => assign_value { s with stack := rest } t k v
  | _, _ => .error .api

/-- Modelled from the spec: `lua_getglobal(L, name)` pushes the global `name`,
the entry of the globals table at that string. -/
def lua_getglobal (s : LuaState) (name : String) : Except LuaError LuaState :=
  match index_value s (.table s.globals) (.string name) with
  | .ok v => .ok (lua_push s v)
  | .error e => .error e

/-- Modelled from the spec: `lua_setglobal(L, name)` pops the top value and
stores it as the global `name`. -/
def lua_setglobal (s : LuaState) (name : String) : Except LuaError LuaState :=
  match s.stack with
  | v :: rest => assign_value { s with stack := rest } (.table s.globals) (.string name) v
  | [] => .error .api

/-- Modelled from the spec: `lua_rawlen(L, idx)`: for a table a border of its
sequence part, for a string its length, otherwise 0. -/
def lua_rawlen (s : LuaState) (idx : Int) : Nat :=
  match index2value s idx with
  | some (.table id) =>
    match s.heap[id]? with
    | some tbl => border tbl 1 tbl.length
    | none => 0
  | some (.string str) => str.length
  | _ => 0

/-- Modelled from the spec: `lua_next(L, idx)` pops a key and pushes the next
key/value pair of the table at `idx` (returning true), or pushes nothing at
the end of the traversal (returning false). -/
def lua_next (s : LuaState) (idx : Int) : Except LuaError (Bool × LuaState) :=
  match index2value s idx, s.stack with
  | some (.table id), k :: rest =>
    match s.heap[id]? with
    | some tbl =>
      match table_next tbl k with
      | some (some (k', v')) => .ok (true, { s with stack := v' :: k' :: rest })
      | some none => .ok (false, { s with stack := rest })
      | none => .error .invalid_next
    | none => .error .api
  | _, _ => .error .api

/-- Modelled from the spec: `lua_rawgeti(L, LUA_REGISTRYINDEX, ref)`: the
registered value, nil for `LUA_NOREF`, `LUA_REFNIL` and released references. -/
def registry_get (s : LuaState) (ref : Int) : Value :=
  if 1 ≤ ref then (s.registry[(ref - 1).toNat]?).getD .nil else .nil

/-- Modelled from the spec: the reference `luaL_ref` hands out for nil. -/
def LUA_REFNIL : Int := -1

/-- Modelled from the spec: the reference of a default-constructed
`sol::reference`. -/
def LUA_NOREF : Int := -2

/-- Modelled from the spec: `luaL_ref(L, LUA_REGISTRYINDEX)` pops the top value
and registers it under a fresh reference (nil gets `LUA_REFNIL`). -/
def luaL_ref (s : LuaState) : Except LuaError (Int × LuaState) :=
  match s.stack with
  | [] => .error .api
  | .nil :: rest => .ok (LUA_REFNIL, { s with stack := rest })
  | v :: rest =>
    .ok ((s.registry.length + 1 : Nat), { s with stack := rest, registry := s.registry ++ [v] })

/-- Modelled from the spec: `luaL_unref(L, LUA_REGISTRYINDEX, ref)` releases
the reference. -/
def luaL_unref (s : LuaState) (ref : Int) : LuaState :=
  if 1 ≤ ref then { s with registry := s.registry.set (ref - 1).toNat .nil } else s

/-- A key as the members of `table_core` use it: whether its C++ type is
arithmetic (`std::is_arithmetic<Unqualified<Key>>`), the value `stack::push`
leaves on the stack for it, and the C string `&key[0]` points to (`none` for
a type that has no `operator[]`). -/
structure Key where
  arithmetic : Bool
  pushed : Value
  c_str : Option String
  deriving DecidableEq, Repr

/-- A string-like key (`const char*`, `std::string`, a character array). -/
def Key.str (name : String) : Key := ⟨false, .string name, some name⟩

/-- An integer key. -/
def Key.num (n : Int) : Key := ⟨true, .number n, none⟩

/-- The key `sol::nil`. -/
def Key.nil : Key := ⟨false, .nil, none⟩

/-- Modelled from the spec: `stack::push(L, value)` pushes exactly one value
(`stack.hpp` is not part of the sources at hand). -/
def stack_push (s : LuaState) (v : Value) : LuaState := lua_push s v

/-- Modelled from the spec: `stack::pop<T>(L)` reads the top of the stack as a
`T` and removes exactly that one value (`stack.hpp` is not part of the
sources at hand).  `get` is the reader of the requested type `T`. -/
def stack_pop {T : Type} (get : Value → T) (s : LuaState) : Except LuaError (T × LuaState) :=
  match s.stack with
  | v :: rest => .ok (get v, { s with stack := rest })
  | [] => .error .api

/-- Modelled from the spec: `sol::reference(L, index)` copies the value at
`index` to the top and moves it into the registry (`reference.hpp` is not part
of the sources at hand). -/
def reference_ctor (s : LuaState) (index : Int) : Except LuaError (Int × LuaState) := do
  let s ← lua_pushvalue s index
  luaL_ref s

/-- Modelled from the spec: `type_assert(L, index, expected)` raises the
runtime's type-assertion error unless the value at `index` has the expected
type (`types.hpp` is not part of the sources at hand). -/
def type_assert (s : LuaState) (index : Int) (expected : type) : Except LuaError Unit :=
  if expected = lua_type s index then .ok () else .error (.type_error expected (lua_type s index))

/-- What `stack::push(L, user)` pushes for a usertype, topmost value first. -/
structure usertype where
  pushed : List Value
  deriving DecidableEq, Repr

/-- Modelled from the spec: `stack::push(L, user)` for a usertype
(`usertype.hpp` is not part of the sources at hand). -/
def stack_push_usertype (s : LuaState) (user : usertype) : LuaState :=
  { s with stack := user.pushed ++ s.stack }

/-- The wrapper: a `sol::reference`, that is a registry reference (the owning
runtime is passed to every member explicitly). -/
structure table_core where
  ref : Int
  deriving DecidableEq, Repr

/-- Modelled from the spec: `reference::push()` pushes the referenced value
(`reference.hpp` is not part of the sources at hand). -/
def table_core.push (t : table_core) (s : LuaState) : LuaState :=
  lua_push s (registry_get s t.ref)

/-- Member `pop(n)`, line 160. -/
def table_core.pop (_t : table_core) (s : LuaState) (n : Nat) : Except LuaError LuaState :=
  lua_pop s n

/-- First overload of `single_get` (lines 38-43), selected when the key is
not arithmetic and the table is top-level. -/
def single_get_global {T : Type} (get : Value → T) (key : Key) (s : LuaState) :
    Except LuaError (T × LuaState) :=
  match key.c_str with
  | none => .error .ill_formed
  | some name => do
    let s ← lua_getglobal s name
    stack_pop get s

/-- Second overload of `single_get` (lines 45-53), selected otherwise. -/
def single_get_table {T : Type} (t : table_core) (get : Value → T) (key : Key)
    (s : LuaState) : Except LuaError (T × LuaState) := do
  let s := t.push s
  let s := stack_push s key.pushed
  let s ← lua_gettable s (-2)
  let (result, s) ← stack_pop get s
  let s ← t.pop s 1
  pure (result, s)

/-- Overload resolution of `single_get`: `EnableIf<Not<is_arithmetic>, Bool<top_level>>`
against `DisableIf<...>` of the same conditions. -/
def single_get {T : Type} (top_level : Bool) (t : table_core) (get : Value → T) (key : Key)
    (s : LuaState) : Except LuaError (T × LuaState) :=
  if (!key.arithmetic && top_level) = true then single_get_global get key s
  else single_get_table t get key s

/-- One lookup of a `get<Ret...>(keys...)` call: the requested type, its stack
reader, and the key. -/
structure Lookup where
  R : Type
  get : Value → R
  key : Key

/-- Variadic `tuple_get` (lines 55-58): the lookups are arguments of one
constructor call, so C++ leaves their evaluation order open; `order` is the
order in which they are performed.  Slot `i` of the result holds the value of
lookup `i` once it has been performed. -/
def tuple_get (top_level : Bool) (t : table_core) {n : Nat} (reqs : Fin n → Lookup) :
    List (Fin n) → ((i : Fin n) → Option (reqs i).R) → LuaState →
      Except LuaError (((i : Fin n) → Option (reqs i).R) × LuaState)
  | [], acc, s => .ok (acc, s)
  | i :: rest, acc, s =>
    match single_get top_level t (reqs i).get (reqs i).key s with
    | .ok (r, s) =>
      tuple_get top_level t reqs rest
        (fun j => if h : j = i then some (h ▸ r) else acc j) s
    | .error e => .error e

/-- Single-type `tuple_get` (lines 60-63): the lookup's value itself. -/
def tuple_get_one {T : Type} (top_level : Bool) (t : table_core) (get : Value → T) (key : Key)
    (s : LuaState) : Except LuaError (T × LuaState) :=
  single_get top_level t get key s

/-- Member `get<Ret...>(keys...)` with two or more types (lines 77-80). -/
def get (top_level : Bool) (t : table_core) {n : Nat} (reqs : Fin n → Lookup)
    (order : List (Fin n)) (s : LuaState) :
    Except LuaError (((i : Fin n) → Option (reqs i).R) × LuaState) :=
  tuple_get top_level t reqs order (fun _ => none) s

/-- Member `get<Ret>(key)` with one type (lines 77-80 with lines 60-63). -/
def get_one {T : Type} (top_level : Bool) (t : table_core) (get : Value → T) (key : Key)
    (s : LuaState) : Except LuaError (T × LuaState) :=
  tuple_get_one top_level t get key s

/-- Member `set(key, value)` (lines 82-96).  `if ( top_level )` is an ordinary
`if`, so line 86 is compiled in both modes and the key needs `&key[0]`. -/
def set (top_level : Bool) (t : table_core) (key : Key) (value : Value) (s : LuaState) :
    Except LuaError LuaState :=
  match key.c_str with
  | none => .error .ill_formed
  | some name =>
    if top_level = true then do
      let s := stack_push s value
      lua_setglobal s name
    else do
      let s := t.push s
      let s := stack_push s key.pushed
      let s := stack_push s value
      let s ← lua_settable s (-3)
      t.pop s 1

/-- Member `set_usertype(key, user)` (lines 113-128). -/
def set_usertype (top_level : Bool) (t : table_core) (key : Key) (user : usertype)
    (s : LuaState) : Except LuaError LuaState :=
  match key.c_str with
  | none => .error .ill_formed
  | some name =>
    if top_level = true then do
      let s := stack_push_usertype s user
      let s ← lua_setglobal s name
      t.pop s 1
    else do
      let s := t.push s
      let s := stack_push s key.pushed
      let s := stack_push_usertype s user
      let s ← lua_settable s (-3)
      t.pop s 1

/-- One call of the callback of `for_each`: the key and value it received and
the stack (top first) at the moment it was entered. -/
structure Call where
  key : Value
  value : Value
  stack : List Value
  deriving DecidableEq, Repr

/-- The `while` loop of `for_each` (lines 134-139) with a budget of `fuel`
evaluations of its condition.  The two `sol::object`s are references made
before the callback runs and released at the end of the iteration. -/
def for_each_loop (fx : Value → Value → LuaState → LuaState) :
    Nat → LuaState → Except LuaError (List Call × LuaState)
  | 0, _ => .error .fuel
  | fuel + 1, s => do
    let (more, s) ← lua_next s (-2)
    if more = true then
      let (key, s) ← reference_ctor s (-2)
      let (value, s) ← reference_ctor s (-1)
      let call : Call := ⟨registry_get s key, registry_get s value, s.stack⟩
      let s := fx (registry_get s key) (registry_get s value) s
      let s ← lua_pop s 1
      let s := luaL_unref (luaL_unref s value) key
      let (calls, s) ← for_each_loop fx fuel s
      pure (call :: calls, s)
    else pure ([], s)

/-- Member `for_each(fx)` (lines 130-141); returns the calls made to `fx`. -/
def for_each (t : table_core) (fx : Value → Value → LuaState → LuaState) (fuel : Nat)
    (s : LuaState) : Except LuaError (List Call × LuaState) := do
  let s := t.push s
  let s := stack_push s .nil
  let (calls, s) ← for_each_loop fx fuel s
  let s ← t.pop s 1
  pure (calls, s)

/-- Member `size()` (lines 143-148). -/
def size (t : table_core) (s : LuaState) : Except LuaError (Nat × LuaState) := do
  let s := t.push s
  let result := lua_rawlen s (-1)
  let s ← t.pop s 1
  pure (result, s)

/-- Constructor `table_core()` (line 71): the empty reference. -/
def table_core.empty : table_core := ⟨LUA_NOREF⟩

/-- Constructor `table_core(L, index)` (lines 73-75). -/
def table_core.from_index (s : LuaState) (index : Int) : Except LuaError (table_core × LuaState) := do
  let (ref, s) ← reference_ctor s index
  type_assert s index .table
  pure (⟨ref⟩, s)

/-- The wrapper `t` references the live table `id`, whose contents are `tbl`. -/
def RefersTo (t : table_core) (s : LuaState) (id : Nat) (tbl : Table) : Prop :=
  registry_get s t.ref = .table id ∧ s.heap[id]? = some tbl

/-- The globals table is live. -/
def GlobalsLive (s : LuaState) : Prop := ∃ g, s.heap[s.globals]? = some g

/-- Representation invariant of a table: no key occurs twice, no key is nil
and no stored value is nil. -/
def TableOk (tbl : Table) : Prop :=
  (tbl.map Prod.fst).Nodup ∧ ∀ p ∈ tbl, p.1 ≠ Value.nil ∧ p.2 ≠ Value.nil

/-- The entries of table 1 of the sample runtime. -/
def sample_entries : Table := [(.string "a", .number 1), (.string "b", .number 2)]

/-- A small runtime: the number 7 on the stack, an empty globals table
(id 0), a table (id 1) with the entries `a = 1` and `b = 2`, and reference 1
of the registry naming table 1. -/
def sample_state : LuaState :=
  ⟨[.number 7], [[], sample_entries], [.table 1], 0⟩

/-- The wrapper over reference 1. -/
def sample_table : table_core := ⟨1⟩

/-- A usertype whose push leaves exactly one value on the stack. -/
def sample_usertype : usertype := ⟨[.userdata 0]⟩

/-- The key on top of the stack once the entries `done` have been visited:
nil before the first entry, the key of the last visited entry afterwards. -/
def cursor (done : Table) : Value :=
  match done.getLast? with
  | none => .nil
  | some p => p.1

/-- A callback that keeps the height of the stack but overwrites its bottom
slot with nil (`lua_pushnil(L); lua_replace(L, 1);`). -/
def overwrite_bottom (_key _value : Value) (s : LuaState) : LuaState :=
  { s with stack := s.stack.set (s.stack.length - 1) .nil }

/-- A callback that leaves the table alone but replaces the key slot just
below the top by the string "b" (`lua_pushstring(L, "b"); lua_replace(L, -3);`). -/
def skip_to_b (_key _value : Value) (s : LuaState) : LuaState :=
  match s.stack with
  | v :: _ :: rest => { s with stack := v :: .string "b" :: rest }
  | _ => s

/-- Two lookups on the sample table: "a" read as a value, "b" as a Boolean
telling whether the entry is present. -/
def sample_lookups : Fin 2 → Lookup
  | 0 => ⟨Value, id, Key.str "a"⟩
  | 1 => ⟨Bool, fun v => decide (v ≠ .nil), Key.str "b"⟩

/-- The values the two sample lookups have. -/
def sample_values : (i : Fin 2) → (sample_lookups i).R
  | 0 => Value.number 1
  | 1 => true

/-! ## Lemmas and theorems -/

@[simp]
theorem index_value_stack (s : LuaState) (st : List Value) (t k : Value) :
    index_value { s with stack := st } t k = index_value s t k := by
  cases t <;> rfl

theorem assign_value_stack (s : LuaState) (st : List Value) (t k v : Value) :
    assign_value { s with stack := st } t k v =
      (assign_value s t k v).map (fun s' => { s' with stack := st }) := by
  cases t <;> simp [assign_value, Except.map]
  rename_i id
  cases s.heap[id]? <;> simp
  by_cases hk : k = .nil <;> simp [hk]

theorem assign_value_frame {s s' : LuaState} {t k v : Value}
    (h : assign_value s t k v = .ok s') :
    s'.stack = s.stack ∧ s'.registry = s.registry ∧ s'.globals = s.globals := by
  cases t <;> simp [assign_value] at h
  rename_i id
  cases hh : s.heap[id]? <;> simp [hh] at h
  by_cases hk : k = .nil <;> simp [hk] at h
  subst h
  simp

theorem single_get_table_eq {T : Type} (t : table_core) (get : Value → T) (key : Key)
    (s : LuaState) :
    single_get_table t get key s =
      (index_value s (registry_get s t.ref) key.pushed).map (fun v => (get v, s)) := by
  simp only [single_get_table, table_core.push, stack_push, lua_push, lua_gettable, index2value, index2pos]
  simp
  cases h : index_value s (registry_get s t.ref) key.pushed <;>
    simp [bind, Except.bind, Except.map, stack_pop, table_core.pop, lua_pop]

theorem single_get_global_eq {T : Type} (get : Value → T) (key : Key) (s : LuaState) :
    single_get_global get key s =
      match key.c_str with
      | none => .error .ill_formed
      | some name =>
        (index_value s (.table s.globals) (.string name)).map (fun v => (get v, s)) := by
  unfold single_get_global
  cases key.c_str with
  | none => rfl
  | some name =>
    simp only [lua_getglobal]
    cases h : index_value s (.table s.globals) (.string name) <;>
      simp [bind, Except.bind, Except.map, stack_pop, lua_push]

theorem set_eq (top_level : Bool) (t : table_core) (key : Key) (value : Value) (s : LuaState) :
    set top_level t key value s =
      match key.c_str with
      | none => .error .ill_formed
      | some name =>
        if top_level = true then assign_value s (.table s.globals) (.string name) value
        else assign_value s (registry_get s t.ref) key.pushed value := by
  unfold set
  cases key.c_str with
  | none => rfl
  | some name =>
    cases top_level
    · simp only [table_core.push, stack_push, lua_push, lua_settable, index2value, index2pos]
      simp
      rw [assign_value_stack]
      cases h : assign_value s (registry_get s t.ref) key.pushed value <;>
        simp [bind, Except.bind, Except.map, table_core.pop, lua_pop]
      rename_i s'
      have := assign_value_frame h
      cases s'; simp_all
    · simp only [stack_push, lua_push, lua_setglobal]
      rfl

theorem size_eq (t : table_core) (s : LuaState) :
    size t s = .ok (lua_rawlen (t.push s) (-1), s) := by
  simp [size, table_core.push, table_core.pop, lua_pop, lua_push, bind, Except.bind, pure, Except.pure]

theorem rawget_rawset_other (tbl : Table) {k k2 : Value} (v : Value) (h : k2 ≠ k) :
    rawget (rawset tbl k v) k2 = rawget tbl k2 := by
  induction tbl with
  | nil => by_cases hv : v = .nil <;> simp [rawset, rawget, hv, Ne.symm h]
  | cons p rest ih =>
    obtain ⟨k', v'⟩ := p
    by_cases hk : k' = k <;> by_cases hv : v = .nil <;>
      simp_all [rawset, rawget, Ne.symm h]

theorem heap_set_other (heap : List Table) {id id2 : Nat} (new : Table) (h : id2 ≠ id) :
    (heap.set id new)[id2]? = heap[id2]? := by
  simp [List.getElem?_set, Ne.symm h]

theorem single_get_state {T : Type} {top_level : Bool} {t : table_core} {get : Value → T}
    {key : Key} {s s' : LuaState} {r : T}
    (h : single_get top_level t get key s = .ok (r, s')) : s' = s := by
  unfold single_get at h
  split at h
  · rw [single_get_global_eq] at h
    cases hc : key.c_str <;> simp [hc] at h
    rename_i name
    cases hi : index_value s (.table s.globals) (.string name) <;> simp [hi, Except.map] at h
    exact h.2.symm
  · rw [single_get_table_eq] at h
    cases hi : index_value s (registry_get s t.ref) key.pushed <;> simp [hi, Except.map] at h
    exact h.2.symm

theorem single_get_of_refers {T : Type} (top_level : Bool) {t : table_core} (get : Value → T)
    (key : Key) {s : LuaState} {id : Nat} {tbl : Table} (href : RefersTo t s id tbl)
    (hmode : top_level = false ∨ key.arithmetic = true) :
    single_get top_level t get key s = .ok (get (rawget tbl key.pushed), s) := by
  have hsel : ¬ ((!key.arithmetic && top_level) = true) := by
    rcases hmode with h | h <;> simp [h]
  simp only [single_get, hsel, if_false]
  rw [single_get_table_eq, href.1]
  simp [index_value, href.2, Except.map]

theorem single_get_of_global {T : Type} (t : table_core) (get : Value → T)
    (key : Key) {s : LuaState} {name : String} {g : Table}
    (harith : key.arithmetic = false) (hname : key.c_str = some name)
    (hg : s.heap[s.globals]? = some g) :
    single_get true t get key s = .ok (get (rawget g (.string name)), s) := by
  simp only [single_get, harith, Bool.not_false, Bool.and_self, if_true]
  rw [single_get_global_eq, hname]
  simp [index_value, hg, Except.map]

theorem set_of_refers {t : table_core} (key : Key) (value : Value) {s : LuaState} {id : Nat}
    {tbl : Table} {name : String} (href : RefersTo t s id tbl) (hname : key.c_str = some name)
    (hkey : key.pushed ≠ .nil) :
    set false t key value s =
      .ok { s with heap := s.heap.set id (rawset tbl key.pushed value) } := by
  rw [set_eq, hname, href.1]
  simp [assign_value, href.2, hkey]

theorem set_of_global (t : table_core) (key : Key) (value : Value) {s : LuaState}
    {name : String} {g : Table} (hname : key.c_str = some name)
    (hg : s.heap[s.globals]? = some g) :
    set true t key value s =
      .ok { s with heap := s.heap.set s.globals (rawset g (.string name) value) } := by
  rw [set_eq, hname]
  simp [assign_value, hg]

theorem set_stack {top_level : Bool} {t : table_core} {key : Key} {value : Value}
    {s s' : LuaState} (h : set top_level t key value s = .ok s') :
    s'.stack = s.stack ∧ s'.registry = s.registry ∧ s'.globals = s.globals := by
  rw [set_eq] at h
  cases hc : key.c_str <;> simp [hc] at h
  split at h <;> exact assign_value_frame h

/-- C2: in both modes `get<T>(key)`, `set(key, value)` and `size()` leave the
runtime stack exactly as it was on entry whenever they return.  They do
return: through the globals table when it is live and the key has a C string,
through the referenced table when the wrapper references a live table (a
nested `set` for a key with a C string that is not nil), and `size()` always. -/
theorem get_set_size_restore_stack {T : Type} (top_level : Bool) (t : table_core)
    (get : Value → T) (key : Key) (value : Value) (s : LuaState) :
    ((∀ r s', get_one top_level t get key s = .ok (r, s') → s'.stack = s.stack) ∧
      (∀ s', set top_level t key value s = .ok s' → s'.stack = s.stack) ∧
      (∀ n s', size t s = .ok (n, s') → s'.stack = s.stack)) ∧
    (∀ name, GlobalsLive s → key.c_str = some name →
      (key.arithmetic = false → ∃ r, get_one true t get key s = .ok (r, s)) ∧
      (∃ s', set true t key value s = .ok s' ∧ s'.stack = s.stack)) ∧
    (∀ id tbl, RefersTo t s id tbl →
      ((top_level = false ∨ key.arithmetic = true) →
        ∃ r, get_one top_level t get key s = .ok (r, s)) ∧
      (∀ name, key.c_str = some name → key.pushed ≠ .nil →
        ∃ s', set false t key value s = .ok s' ∧ s'.stack = s.stack)) ∧
    (∃ n, size t s = .ok (n, s)) := by
  refine ⟨⟨?_, ?_, ?_⟩, ?_, ?_, ?_⟩
  · intro r s' h
    rw [single_get_state h]
  · intro s' h
    exact (set_stack h).1
  · intro n s' h
    rw [size_eq] at h
    simp at h
    rw [← h.2]
  · intro name ⟨g, hg⟩ hname
    exact ⟨fun ha => ⟨_, single_get_of_global t get key ha hname hg⟩,
      _, set_of_global t key value hname hg, rfl⟩
  · intro id tbl href
    exact ⟨fun hmode => ⟨_, single_get_of_refers top_level get key href hmode⟩,
      fun name hname hkey => ⟨_, set_of_refers key value href hname hkey, rfl⟩⟩
  · exact ⟨_, size_eq t s⟩

theorem tuple_get_spec (top_level : Bool) (t : table_core) {n : Nat} (reqs : Fin n → Lookup)
    (s : LuaState) (vals : (i : Fin n) → (reqs i).R)
    (hvals : ∀ i, single_get top_level t (reqs i).get (reqs i).key s = .ok (vals i, s))
    (order : List (Fin n)) :
    ∀ acc : (i : Fin n) → Option (reqs i).R,
      ∃ res, tuple_get top_level t reqs order acc s = .ok (res, s) ∧
        ∀ j, res j = if j ∈ order then some (vals j) else acc j := by
  induction order with
  | nil =>
    intro acc
    exact ⟨acc, rfl, by simp⟩
  | cons i rest ih =>
    intro acc
    obtain ⟨res, hres, hslots⟩ :=
      ih (fun j => if h : j = i then some (h ▸ vals i) else acc j)
    refine ⟨res, ?_, ?_⟩
    · simp only [tuple_get, hvals i]
      exact hres
    · intro j
      rw [hslots j]
      by_cases hj : j = i
      · subst hj
        simp
      · simp [hj]

theorem tuple_get_error (top_level : Bool) (t : table_core) {n : Nat} (reqs : Fin n → Lookup)
    (s : LuaState) (i : Fin n) (e : LuaError)
    (hfail : single_get top_level t (reqs i).get (reqs i).key s = .error e)
    (order : List (Fin n)) (hmem : i ∈ order) :
    ∀ acc : (i : Fin n) → Option (reqs i).R,
      ∃ e', tuple_get top_level t reqs order acc s = .error e' := by
  induction order with
  | nil => simp at hmem
  | cons j rest ih =>
    intro acc
    cases hj : single_get top_level t (reqs j).get (reqs j).key s with
    | error e' => exact ⟨e', by simp [tuple_get, hj]⟩
    | ok r =>
      obtain ⟨r, s'⟩ := r
      have hs := single_get_state hj
      subst hs
      have hrest : i ∈ rest := by
        rcases List.mem_cons.mp hmem with h | h
        · subst h
          rw [hfail] at hj
          cases hj
        · exact h
      obtain ⟨e', he'⟩ := ih hrest (fun k => if h : k = j then some (h ▸ r) else acc k)
      exact ⟨e', by simp only [tuple_get, hj]; exact he'⟩

/-- C10: `get<R1,...,Rn>(k1,...,kn)` returns the tuple whose i-th component is
the value `get<Ri>(ki)` has on the same runtime state, whatever the order in
which the lookups are performed, and leaves the state as it was; if one of the
lookups fails the whole call fails in every order; with a single type,
`get<R>(k)` is the single lookup itself. -/
theorem get_tuple_componentwise (top_level : Bool) (t : table_core) {n : Nat}
    (reqs : Fin n → Lookup) (s : LuaState) :
    (∀ vals : (i : Fin n) → (reqs i).R,
      (∀ i, ∃ s', get_one top_level t (reqs i).get (reqs i).key s = .ok (vals i, s')) →
      ∀ order : List (Fin n), (∀ i, i ∈ order) →
        ∃ res, get top_level t reqs order s = .ok (res, s) ∧ ∀ i, res i = some (vals i)) ∧
    (∀ i e, get_one top_level t (reqs i).get (reqs i).key s = .error e →
      ∀ order : List (Fin n), (∀ i, i ∈ order) →
        ∃ e', get top_level t reqs order s = .error e') ∧
    (∀ (R : Type) (rd : Value → R) (key : Key),
      get_one top_level t rd key s = single_get top_level t rd key s) := by
  refine ⟨?_, ?_, ?_⟩
  · intro vals hvals order hall
    have hvals' : ∀ i, single_get top_level t (reqs i).get (reqs i).key s = .ok (vals i, s) := by
      intro i
      obtain ⟨s', hs'⟩ := hvals i
      have := single_get_state hs'
      subst this
      exact hs'
    obtain ⟨res, hres, hslots⟩ :=
      tuple_get_spec top_level t reqs s vals hvals' order (fun _ => none)
    refine ⟨res, hres, ?_⟩
    intro i
    rw [hslots i]
    simp [hall i]
  · intro i e hfail order hall
    exact tuple_get_error top_level t reqs s i e hfail order (hall i) (fun _ => none)
  · intro R rd key
    rfl

theorem luaL_ref_cons (s : LuaState) (v : Value) (rest : List Value) (hv : v ≠ .nil)
    (hs : s.stack = v :: rest) :
    luaL_ref s =
      .ok ((s.registry.length + 1 : Nat), { s with stack := rest, registry := s.registry ++ [v] }) := by
  cases v <;> simp [luaL_ref, hs] at hv ⊢

theorem luaL_ref_nil (s : LuaState) (rest : List Value) (hs : s.stack = .nil :: rest) :
    luaL_ref s = .ok (LUA_REFNIL, { s with stack := rest }) := by
  simp [luaL_ref, hs]

theorem registry_get_fresh (s : LuaState) (v : Value) (more : List Value) :
    registry_get { s with registry := s.registry ++ v :: more }
      ((s.registry.length + 1 : Nat) : Int) = v := by
  have h1 : (1 : Int) ≤ ((s.registry.length + 1 : Nat) : Int) := by omega
  have h2 : (((s.registry.length + 1 : Nat) : Int) - 1).toNat = s.registry.length := by omega
  have h3 : (s.registry ++ v :: more)[s.registry.length]? = some v := by
    rw [List.getElem?_append_right (le_refl _)]
    simp
  simp only [registry_get, h1, if_true, h2, h3, Option.getD_some]

theorem reference_ctor_value (s : LuaState) (index : Int) (v : Value)
    (hv : index2value s index = some v) :
    ∃ ref s', reference_ctor s index = .ok (ref, s') ∧ s'.stack = s.stack ∧
      s'.heap = s.heap ∧ s'.globals = s.globals ∧ registry_get s' ref = v ∧
      (∀ r, registry_get s r ≠ .nil → registry_get s' r = registry_get s r) := by
  by_cases hnil : v = .nil
  · subst hnil
    refine ⟨LUA_REFNIL, s, ?_, rfl, rfl, rfl, ?_, fun _ _ => rfl⟩
    · simp [reference_ctor, lua_pushvalue, hv, bind, Except.bind, lua_push, luaL_ref]
    · simp [registry_get, LUA_REFNIL]
  · refine ⟨(s.registry.length + 1 : Nat), { s with registry := s.registry ++ [v] }, ?_, rfl,
      rfl, rfl, registry_get_fresh s v [], ?_⟩
    · simp only [reference_ctor, lua_pushvalue, hv, bind, Except.bind]
      rw [luaL_ref_cons (lua_push s v) v s.stack hnil rfl]
      rfl
    · intro r hr
      simp only [registry_get] at hr ⊢
      split
      · rename_i h1
        simp only [h1, if_true] at hr
        have hlt : (r - 1).toNat < s.registry.length := by
          by_contra hge
          rw [List.getElem?_eq_none (by omega)] at hr
          simp at hr
        show ((s.registry ++ [v])[(r - 1).toNat]?).getD .nil = _
        rw [List.getElem?_append_left hlt]
      · rfl

/-- C4: constructing `table_core(L, index)` raises the type-assertion error
exactly when the value at `index` is not a table; when it is a table the
construction succeeds, the wrapper references that table and the stack, the
heap and the globals are unchanged; construction succeeds only on a table. -/
theorem from_index_checks_table (s : LuaState) (index : Int) :
    (∀ v, index2value s index = some v →
      ((∃ actual, table_core.from_index s index = .error (.type_error .table actual)) ↔
        ∀ id, v ≠ .table id)) ∧
    (∀ id, index2value s index = some (.table id) →
      ∃ t s', table_core.from_index s index = .ok (t, s') ∧
        registry_get s' t.ref = .table id ∧ s'.stack = s.stack ∧ s'.heap = s.heap ∧
        s'.globals = s.globals) ∧
    (∀ t s', table_core.from_index s index = .ok (t, s') →
      ∃ id, index2value s index = some (.table id)) := by
  have key : ∀ v, index2value s index = some v →
      ∃ ref s', reference_ctor s index = .ok (ref, s') ∧ s'.stack = s.stack ∧
        s'.heap = s.heap ∧ s'.globals = s.globals ∧ registry_get s' ref = v ∧
        table_core.from_index s index =
          (type_assert s index .table).map (fun _ => (⟨ref⟩, s')) := by
    intro v hv
    obtain ⟨ref, s', hctor, hst, hheap, hglob, hreg, _⟩ := reference_ctor_value s index v hv
    refine ⟨ref, s', hctor, hst, hheap, hglob, hreg, ?_⟩
    have htype : lua_type s' index = lua_type s index := by
      simp [lua_type, index2value, hst]
    simp only [table_core.from_index, hctor, bind, Except.bind, type_assert, htype]
    by_cases h : type.table = lua_type s index <;> simp [h, Except.map, pure, Except.pure]
  refine ⟨?_, ?_, ?_⟩
  · intro v hv
    obtain ⟨ref, s', _, _, _, _, _, hfrom⟩ := key v hv
    rw [hfrom]
    cases v <;> simp [type_assert, lua_type, hv, Except.map]
  · intro id hv
    obtain ⟨ref, s', _, hst, hheap, hglob, hreg, hfrom⟩ := key _ hv
    refine ⟨⟨ref⟩, s', ?_, hreg, hst, hheap, hglob⟩
    rw [hfrom]
    simp [type_assert, lua_type, hv, Except.map]
  · intro t s' hok
    cases hv : index2value s index with
    | none =>
      by_cases hpos : 0 < index
      · simp [table_core.from_index, reference_ctor, lua_pushvalue, hv, hpos, bind, Except.bind,
          lua_push, luaL_ref, type_assert, lua_type, index2value] at hok
        simp only [index2value] at hv
        split at hv
        · rename_i p hp
          simp [hp, hv] at hok
        · rename_i hp
          simp [hp] at hok
      · simp [table_core.from_index, reference_ctor, lua_pushvalue, hv, hpos, bind,
          Except.bind] at hok
    | some v =>
      obtain ⟨ref, s1, _, _, _, _, _, hfrom⟩ := key v hv
      rw [hfrom] at hok
      cases v <;> simp [type_assert, lua_type, hv, Except.map] at hok
      exact ⟨_, rfl⟩

theorem set_usertype_top_level (t : table_core) (key : Key) (user : usertype) (s : LuaState)
    (name : String) (u x : Value) (rest : List Value) (g : Table)
    (hname : key.c_str = some name) (huser : user.pushed = [u]) (hstack : s.stack = x :: rest)
    (hg : s.heap[s.globals]? = some g) :
    set_usertype true t key user s =
      .ok { s with stack := rest, heap := s.heap.set s.globals (rawset g (.string name) u) } := by
  simp [set_usertype, hname, huser, hstack, stack_push_usertype, lua_setglobal, assign_value, hg,
    bind, Except.bind, table_core.pop, lua_pop]

theorem set_usertype_top_level_empty (t : table_core) (key : Key) (user : usertype)
    (s : LuaState) (u : Value) (huser : user.pushed = [u]) (hstack : s.stack = []) :
    ∃ e, set_usertype true t key user s = .error e := by
  cases hc : key.c_str with
  | none => exact ⟨.ill_formed, by simp [set_usertype, hc]⟩
  | some name =>
    cases ha : assign_value { s with stack := [] } (.table s.globals) (.string name) u with
    | error e =>
      exact ⟨e, by simp [set_usertype, hc, huser, hstack, stack_push_usertype, lua_setglobal, ha,
        bind, Except.bind]⟩
    | ok s' =>
      have hs' := (assign_value_frame ha).1
      exact ⟨.api, by simp [set_usertype, hc, huser, hstack, stack_push_usertype, lua_setglobal,
        ha, bind, Except.bind, table_core.pop, lua_pop, hs']⟩

theorem set_usertype_nested (t : table_core) (key : Key) (user : usertype) (s : LuaState)
    (name : String) (u : Value) (id : Nat) (tbl : Table)
    (hname : key.c_str = some name) (hkey : key.pushed ≠ .nil) (huser : user.pushed = [u])
    (href : RefersTo t s id tbl) :
    set_usertype false t key user s =
      .ok { s with heap := s.heap.set id (rawset tbl key.pushed u) } := by
  simp [set_usertype, hname, huser, stack_push_usertype, table_core.push, stack_push, lua_push,
    lua_settable, index2value, index2pos, href.1, assign_value, href.2, hkey,
    bind, Except.bind, table_core.pop, lua_pop]

theorem set_usertype_two_values (t : table_core) (name : String) (u1 u2 : Value)
    (s : LuaState) (g : Table) (hg : s.heap[s.globals]? = some g) :
    (∃ s', set_usertype true t (Key.str name) ⟨[u1, u2]⟩ s = .ok s' ∧ s'.stack = s.stack) ∧
    set_usertype false t (Key.str name) ⟨[u1, u2]⟩ s = .error .index_error := by
  constructor
  · exact ⟨{ s with heap := s.heap.set s.globals (rawset g (.string name) u1) }, by
      simp [set_usertype, Key.str, stack_push_usertype, lua_setglobal, assign_value, hg, bind,
        Except.bind, table_core.pop, lua_pop], rfl⟩
  · simp [set_usertype, Key.str, stack_push_usertype, table_core.push, stack_push, lua_push,
      lua_settable, index2value, index2pos, assign_value, bind, Except.bind]

/-- C1: on the sample runtime (stack height 1) the top-level
`set_usertype("k", user)` with a usertype that pushes one value returns with
an EMPTY stack, one value below the entry height: the value that was on the
stack before the call is gone.  The nested branch and the top-level `set` of
the same key and value keep the stack as it was.  With a usertype that pushes
two values the top-level branch is balanced but the nested branch indexes the
key and fails. -/
theorem set_usertype_top_level_pops_caller_value :
    sample_state.stack = [.number 7] ∧
    set_usertype true sample_table (Key.str "k") sample_usertype sample_state =
      .ok ⟨[], [[(.string "k", .userdata 0)], sample_entries], [.table 1], 0⟩ ∧
    (set_usertype false sample_table (Key.str "k") sample_usertype sample_state).map
      (fun s => s.stack) = .ok [.number 7] ∧
    (set true sample_table (Key.str "k") (.userdata 0) sample_state).map
      (fun s => s.stack) = .ok [.number 7] ∧
    (set_usertype true sample_table (Key.str "k") ⟨[.userdata 0, .userdata 1]⟩
      sample_state).map (fun s => s.stack) = .ok [.number 7] ∧
    set_usertype false sample_table (Key.str "k") ⟨[.userdata 0, .userdata 1]⟩ sample_state =
      .error .index_error := by
  decide

theorem cursor_concat (done : Table) (k v : Value) : cursor (done ++ [(k, v)]) = k := by
  simp [cursor]

theorem next_after_append (d r : Table) (k v : Value) (h : k ∉ d.map Prod.fst) :
    next_after (d ++ (k, v) :: r) k = some r.head? := by
  induction d with
  | nil => simp [next_after]
  | cons p rest ih =>
    obtain ⟨k', v'⟩ := p
    simp only [List.map_cons, List.mem_cons, not_or] at h
    simp [next_after, Ne.symm h.1, ih h.2]

theorem table_next_cursor (done remaining : Table) (hok : TableOk (done ++ remaining)) :
    table_next (done ++ remaining) (cursor done) = some remaining.head? := by
  rcases List.eq_nil_or_concat done with h | ⟨d, p, h⟩
  · subst h
    simp [table_next, cursor]
  · subst h
    obtain ⟨k, v⟩ := p
    rw [List.concat_eq_append] at hok ⊢
    have hk : k ≠ .nil := (hok.2 (k, v) (by simp)).1
    have hnot : k ∉ d.map Prod.fst := by
      have heq : ((d ++ [(k, v)]) ++ remaining).map Prod.fst =
          d.map Prod.fst ++ k :: remaining.map Prod.fst := by simp
      have hnd := hok.1
      rw [heq, List.nodup_append] at hnd
      intro hmem
      exact hnd.2.2 hmem (List.mem_cons_self _ _)
    rw [cursor_concat]
    simp only [table_next, hk, if_false, List.append_assoc, List.singleton_append]
    exact next_after_append d remaining k v hnot

@[simp]
theorem luaL_unref_stack (s : LuaState) (r : Int) : (luaL_unref s r).stack = s.stack := by
  unfold luaL_unref
  split <;> rfl

@[simp]
theorem luaL_unref_heap (s : LuaState) (r : Int) : (luaL_unref s r).heap = s.heap := by
  unfold luaL_unref
  split <;> rfl

theorem lua_next_at_cursor (s : LuaState) (id : Nat) (base : List Value) (done remaining : Table)
    (hok : TableOk (done ++ remaining)) (hheap : s.heap[id]? = some (done ++ remaining))
    (hstack : s.stack = cursor done :: .table id :: base) :
    lua_next s (-2) =
      match remaining with
      | [] => .ok (false, { s with stack := .table id :: base })
      | (k, v) :: _ => .ok (true, { s with stack := v :: k :: .table id :: base }) := by
  have hidx : index2value s (-2) = some (.table id) := by
    simp [index2value, index2pos, hstack]
  simp only [lua_next, hidx, hstack, hheap, table_next_cursor done remaining hok]
  cases remaining with
  | nil => rfl
  | cons p r => rfl

theorem for_each_loop_spec (fx : Value → Value → LuaState → LuaState) (id : Nat)
    (base : List Value) (hfx_stack : ∀ k v s, (fx k v s).stack = s.stack)
    (hfx_table : ∀ k v s, (fx k v s).heap[id]? = s.heap[id]?) :
    ∀ (remaining done : Table) (fuel : Nat) (s : LuaState),
      TableOk (done ++ remaining) → s.heap[id]? = some (done ++ remaining) →
      s.stack = cursor done :: .table id :: base → remaining.length < fuel →
      ∃ s', for_each_loop fx fuel s =
          .ok (remaining.map (fun p => ⟨p.1, p.2, p.2 :: p.1 :: .table id :: base⟩), s') ∧
        s'.stack = .table id :: base ∧ s'.heap[id]? = some (done ++ remaining) := by
  intro remaining
  induction remaining with
  | nil =>
    intro done fuel s hok hheap hstack hfuel
    obtain ⟨f, rfl⟩ : ∃ f, fuel = f + 1 := ⟨fuel - 1, by simp at hfuel; omega⟩
    refine ⟨{ s with stack := .table id :: base }, ?_, rfl, hheap⟩
    simp [for_each_loop, lua_next_at_cursor s id base done [] hok hheap hstack, bind,
      Except.bind, pure, Except.pure]
  | cons p r ih =>
    intro done fuel s hok hheap hstack hfuel
    obtain ⟨k, v⟩ := p
    obtain ⟨f, rfl⟩ : ∃ f, fuel = f + 1 := ⟨fuel - 1, by simp at hfuel; omega⟩
    have hk : k ≠ .nil := (hok.2 (k, v) (by simp)).1
    -- the two `sol::object`s
    obtain ⟨kref, s2, h2, hst2, hheap2, _, hkreg, _⟩ :=
      reference_ctor_value { s with stack := v :: k :: .table id :: base } (-2) k
        (by simp [index2value, index2pos])
    obtain ⟨vref, s3, h3, hst3, hheap3, _, hvreg, hpres⟩ :=
      reference_ctor_value s2 (-1) v (by simp [index2value, index2pos, hst2])
    have hkreg3 : registry_get s3 kref = k := by
      rw [hpres kref (by rw [hkreg]; exact hk), hkreg]
    simp only at hst2 hheap2
    have hst3' : s3.stack = v :: k :: .table id :: base := by rw [hst3, hst2]
    have hheap3' : s3.heap[id]? = some (done ++ (k, v) :: r) := by rw [hheap3, hheap2, hheap]
    -- the callback and the pop
    have hst4 : (fx k v s3).stack = v :: k :: .table id :: base := by rw [hfx_stack, hst3']
    have hpop : lua_pop (fx k v s3) 1 =
        .ok { fx k v s3 with stack := k :: .table id :: base } := by
      simp [lua_pop, hst4]
    -- the rest of the traversal
    obtain ⟨s', hloop, hst', hheap'⟩ :=
      ih (done ++ [(k, v)]) f
        (luaL_unref (luaL_unref { fx k v s3 with stack := k :: .table id :: base } vref) kref)
        (by simpa using hok)
        (by simp [hfx_table, hheap3'])
        (by simp [cursor_concat])
        (by simp at hfuel; omega)
    refine ⟨s', ?_, hst', by simpa using hheap'⟩
    simp only [for_each_loop, lua_next_at_cursor s id base done ((k, v) :: r) hok hheap hstack,
      bind, Except.bind, if_true, h2, h3, hkreg3, hvreg, hpop, hloop, pure, Except.pure,
      hst3', List.map_cons]

theorem sample_refers : RefersTo sample_table sample_state 1 sample_entries := ⟨rfl, rfl⟩

theorem sample_entries_ok : TableOk sample_entries := by
  unfold TableOk sample_entries
  decide

theorem for_each_spec (t : table_core) (fx : Value → Value → LuaState → LuaState)
    (s : LuaState) (id : Nat) (tbl : Table)
    (hfx_stack : ∀ k v s, (fx k v s).stack = s.stack)
    (hfx_table : ∀ k v s, (fx k v s).heap[id]? = s.heap[id]?)
    (href : RefersTo t s id tbl) (hok : TableOk tbl) (fuel : Nat) (hfuel : tbl.length < fuel) :
    ∃ s', for_each t fx fuel s =
        .ok (tbl.map (fun p => ⟨p.1, p.2, p.2 :: p.1 :: .table id :: s.stack⟩), s') ∧
      s'.stack = s.stack := by
  obtain ⟨s1, hloop, hst, _⟩ :=
    for_each_loop_spec fx id s.stack hfx_stack hfx_table tbl [] fuel
      (stack_push (t.push s) .nil) (by simpa using hok)
      (by simpa [stack_push, table_core.push, lua_push] using href.2)
      (by simp [stack_push, table_core.push, lua_push, cursor, href.1]) hfuel
  refine ⟨{ s1 with stack := s.stack }, ?_, rfl⟩
  simp [for_each, hloop, bind, Except.bind, table_core.pop, lua_pop, hst, pure, Except.pure]

/-- C3, amended: for a callback that leaves the stack as it found it (the same
values, not only the same height) and does not modify the table, `for_each`
ends, with any budget above the number of entries, with the stack exactly as
on entry, and every call of the callback sees the entry stack followed by the
table, the current key and the current value. -/
theorem for_each_restores_stack (t : table_core) (fx : Value → Value → LuaState → LuaState)
    (s : LuaState) (id : Nat) (tbl : Table)
    (hfx_stack : ∀ k v s, (fx k v s).stack = s.stack)
    (hfx_table : ∀ k v s, (fx k v s).heap[id]? = s.heap[id]?)
    (href : RefersTo t s id tbl) (hok : TableOk tbl) (fuel : Nat) (hfuel : tbl.length < fuel) :
    ∃ calls s', for_each t fx fuel s = .ok (calls, s') ∧ s'.stack = s.stack ∧
      ∀ c ∈ calls, c.stack = c.value :: c.key :: .table id :: s.stack ∧
        (c.key, c.value) ∈ tbl := by
  obtain ⟨s', hrun, hst⟩ := for_each_spec t fx s id tbl hfx_stack hfx_table href hok fuel hfuel
  refine ⟨_, s', hrun, hst, ?_⟩
  intro c hc
  obtain ⟨p, hp, rfl⟩ := List.mem_map.mp hc
  exact ⟨rfl, hp⟩

/-- C3, witness: the sample table traversed by the callback that does nothing. -/
theorem for_each_restores_stack_witness :
    ∃ calls s', for_each sample_table (fun _ _ s => s) 3 sample_state = .ok (calls, s') ∧
      s'.stack = sample_state.stack ∧
      ∀ c ∈ calls, c.stack = c.value :: c.key :: .table 1 :: sample_state.stack ∧
        (c.key, c.value) ∈ sample_entries :=
  for_each_restores_stack sample_table (fun _ _ s => s) sample_state 1 sample_entries
    (fun _ _ _ => rfl) (fun _ _ _ => rfl) sample_refers sample_entries_ok 3 (by decide)

/-- C3, counterexample: `overwrite_bottom` keeps the stack height and does not
touch the table, yet `for_each` ends with the stack `[nil]` where the entry
stack was `[7]`, whatever the budget. -/
theorem for_each_height_preserving_callback_changes_stack :
    (∀ k v s, (overwrite_bottom k v s).stack.length = s.stack.length) ∧
    (∀ k v s, (overwrite_bottom k v s).heap = s.heap) ∧
    RefersTo sample_table sample_state 1 sample_entries ∧ TableOk sample_entries ∧
    sample_state.stack = [.number 7] ∧
    (for_each sample_table overwrite_bottom 3 sample_state).map (fun r => r.2.stack) =
      .ok [.nil] ∧
    ∀ fuel calls s', for_each sample_table overwrite_bottom fuel sample_state = .ok (calls, s') →
      s'.stack ≠ sample_state.stack := by
  refine ⟨fun _ _ _ => by simp [overwrite_bottom], fun _ _ _ => rfl, sample_refers,
    sample_entries_ok, rfl, by decide, ?_⟩
  intro fuel calls s' h
  match fuel, h with
  | 0, h =>
    have hrun : for_each sample_table overwrite_bottom 0 sample_state = .error .fuel := by
      decide
    rw [hrun] at h
    cases h
  | 1, h =>
    have hrun : for_each sample_table overwrite_bottom 1 sample_state = .error .fuel := by
      decide
    rw [hrun] at h
    cases h
  | 2, h =>
    have hrun : for_each sample_table overwrite_bottom 2 sample_state = .error .fuel := by
      decide
    rw [hrun] at h
    cases h
  | n + 3, h =>
    have hrun : (for_each sample_table overwrite_bottom (n + 3) sample_state).map
        (fun r => r.2.stack) = .ok [.nil] := rfl
    rw [h] at hrun
    simp [Except.map] at hrun
    rw [hrun]
    decide

/-- C7, amended: for a callback that does not modify the table and leaves the
stack as it found it, `for_each` calls the callback exactly once for each
key/value pair of the referenced table, with that key and value, in traversal
order, and makes no other call (the list of calls is the list of entries and
has no repetition); on an empty table it makes no call. -/
theorem for_each_calls_each_entry_once (t : table_core)
    (fx : Value → Value → LuaState → LuaState) (s : LuaState) (id : Nat) (tbl : Table)
    (hfx_stack : ∀ k v s, (fx k v s).stack = s.stack)
    (hfx_table : ∀ k v s, (fx k v s).heap[id]? = s.heap[id]?)
    (href : RefersTo t s id tbl) (hok : TableOk tbl) (fuel : Nat) (hfuel : tbl.length < fuel) :
    ∃ calls s', for_each t fx fuel s = .ok (calls, s') ∧
      calls.map (fun c => (c.key, c.value)) = tbl ∧
      (calls.map (fun c => (c.key, c.value))).Nodup ∧
      (∀ p, p ∈ calls.map (fun c => (c.key, c.value)) ↔ p ∈ tbl) ∧
      (tbl = [] → calls = []) := by
  obtain ⟨s', hrun, _⟩ := for_each_spec t fx s id tbl hfx_stack hfx_table href hok fuel hfuel
  have hmap : (tbl.map (fun p => (⟨p.1, p.2, p.2 :: p.1 :: .table id :: s.stack⟩ : Call))).map
      (fun c => (c.key, c.value)) = tbl := by
    simp [List.map_map, Function.comp_def]
  refine ⟨_, s', hrun, hmap, ?_, ?_, ?_⟩
  · rw [hmap]
    exact List.Nodup.of_map _ hok.1
  · intro p
    rw [hmap]
  · intro h
    simp [h]

/-- C7, witness: the sample table traversed by the callback that does nothing. -/
theorem for_each_calls_each_entry_once_witness :
    ∃ calls s', for_each sample_table (fun _ _ s => s) 3 sample_state = .ok (calls, s') ∧
      calls.map (fun c => (c.key, c.value)) = sample_entries ∧
      (calls.map (fun c => (c.key, c.value))).Nodup ∧
      (∀ p, p ∈ calls.map (fun c => (c.key, c.value)) ↔ p ∈ sample_entries) ∧
      (sample_entries = [] → calls = []) :=
  for_each_calls_each_entry_once sample_table (fun _ _ s => s) sample_state 1 sample_entries
    (fun _ _ _ => rfl) (fun _ _ _ => rfl) sample_refers sample_entries_ok 3 (by decide)

/-- C7, counterexample: `skip_to_b` does not modify the table, yet `for_each`
over the table with the entries `a = 1` and `b = 2` calls it for `a = 1` only:
the pair `b = 2` is never passed, whatever the budget. -/
theorem for_each_table_preserving_callback_misses_entry :
    (∀ k v s, (skip_to_b k v s).heap = s.heap) ∧
    RefersTo sample_table sample_state 1 sample_entries ∧ TableOk sample_entries ∧
    (Value.string "b", Value.number 2) ∈ sample_entries ∧
    (for_each sample_table skip_to_b 2 sample_state).map
      (fun r => r.1.map (fun c => (c.key, c.value))) = .ok [(.string "a", .number 1)] ∧
    ∀ fuel calls s', for_each sample_table skip_to_b fuel sample_state = .ok (calls, s') →
      (Value.string "b", Value.number 2) ∉ calls.map (fun c => (c.key, c.value)) := by
  refine ⟨?_, sample_refers, sample_entries_ok, by decide, by decide, ?_⟩
  · intro k v s
    unfold skip_to_b
    split <;> rfl
  · intro fuel calls s' h
    match fuel, h with
    | 0, h =>
      have hrun : for_each sample_table skip_to_b 0 sample_state = .error .fuel := by decide
      rw [hrun] at h
      cases h
    | 1, h =>
      have hrun : for_each sample_table skip_to_b 1 sample_state = .error .fuel := by decide
      rw [hrun] at h
      cases h
    | n + 2, h =>
      have hrun : (for_each sample_table skip_to_b (n + 2) sample_state).map
          (fun r => r.1.map (fun c => (c.key, c.value))) = .ok [(.string "a", .number 1)] := rfl
      rw [h] at hrun
      simp [Except.map] at hrun
      rw [hrun]
      decide

theorem rawset_keys_subset (tbl : Table) (k v : Value) :
    ∀ x ∈ (rawset tbl k v).map Prod.fst, x = k ∨ x ∈ tbl.map Prod.fst := by
  induction tbl with
  | nil =>
    intro x hx
    by_cases hv : v = .nil <;> simp_all [rawset]
  | cons p rest ih =>
    obtain ⟨k', v'⟩ := p
    intro x hx
    by_cases hk : k' = k <;> by_cases hv : v = .nil
    · simp only [rawset, hk, hv, if_true] at hx
      rcases ih x (by simpa [hv] using hx) with h | h
      · exact Or.inl h
      · exact Or.inr (by simp [h])
    · simp only [rawset, hk, hv, if_true, if_false, List.map_cons, List.mem_cons] at hx
      rcases hx with h | h
      · exact Or.inl h
      · exact Or.inr (by simp [h])
    · simp only [rawset, hk, if_false, List.map_cons, List.mem_cons] at hx
      rcases hx with h | h
      · exact Or.inr (by simp [h])
      · rcases ih x h with h' | h'
        · exact Or.inl h'
        · exact Or.inr (by simp [h'])
    · simp only [rawset, hk, if_false, List.map_cons, List.mem_cons] at hx
      rcases hx with h | h
      · exact Or.inr (by simp [h])
      · rcases ih x h with h' | h'
        · exact Or.inl h'
        · exact Or.inr (by simp [h'])

theorem rawset_ok (tbl : Table) (k v : Value) (hk : k ≠ .nil) (hok : TableOk tbl) :
    TableOk (rawset tbl k v) := by
  induction tbl with
  | nil =>
    by_cases hv : v = .nil
    · simp [rawset, hv, TableOk]
    · simp [rawset, hv, TableOk, hk]
  | cons p rest ih =>
    obtain ⟨k', v'⟩ := p
    have hrest : TableOk rest := by
      refine ⟨(List.nodup_cons.mp hok.1).2, fun q hq => hok.2 q (List.mem_cons_of_mem _ hq)⟩
    have hnot : k' ∉ rest.map Prod.fst := (List.nodup_cons.mp hok.1).1
    have hhead := hok.2 (k', v') (List.mem_cons_self _ _)
    by_cases hkk : k' = k
    · by_cases hv : v = .nil
      · simpa [rawset, hkk, hv] using ih hrest
      · subst hkk
        simp only [rawset, if_true, hv, if_false]
        refine ⟨List.nodup_cons.mpr ⟨hnot, hrest.1⟩, ?_⟩
        intro q hq
        rcases List.mem_cons.mp hq with h | h
        · subst h
          exact ⟨hk, hv⟩
        · exact hrest.2 q h
    · simp only [rawset, hkk, if_false]
      have ih' := ih hrest
      refine ⟨List.nodup_cons.mpr ⟨?_, ih'.1⟩, ?_⟩
      · intro hmem
        rcases rawset_keys_subset rest k v k' hmem with h | h
        · exact hkk h
        · exact hnot h
      · intro q hq
        rcases List.mem_cons.mp hq with h | h
        · subst h
          exact hhead
        · exact ih'.2 q h

/-- C2, witness: on the sample runtime `get`, `set` and `size` return with
the stack as on entry, nested through table 1 and top-level through the
globals table. -/
theorem get_set_size_restore_stack_witness :
    (∃ r, get_one false sample_table id (Key.str "a") sample_state = .ok (r, sample_state)) ∧
    (∃ s', set false sample_table (Key.str "a") (.number 5) sample_state = .ok s' ∧
      s'.stack = sample_state.stack) ∧
    (∃ r, get_one true sample_table id (Key.str "a") sample_state = .ok (r, sample_state)) ∧
    (∃ s', set true sample_table (Key.str "a") (.number 5) sample_state = .ok s' ∧
      s'.stack = sample_state.stack) ∧
    (∃ n, size sample_table sample_state = .ok (n, sample_state)) :=
  have h := (get_set_size_restore_stack false sample_table id (Key.str "a") (.number 5)
    sample_state).2
  have hnested := h.2.1 1 sample_entries sample_refers
  have hglobal := h.1 "a" ⟨[], rfl⟩ rfl
  ⟨hnested.1 (Or.inl rfl), hnested.2 "a" rfl (by decide), hglobal.1 rfl, hglobal.2, h.2.2⟩

/-- C10, witness: the two sample lookups performed second-first yield the
tuple (1, true) in key order. -/
theorem get_tuple_componentwise_witness :
    ∃ res, get false sample_table sample_lookups [1, 0] sample_state = .ok (res, sample_state) ∧
      ∀ i, res i = some (sample_values i) :=
  (get_tuple_componentwise false sample_table sample_lookups sample_state).1 sample_values
    (fun i => ⟨sample_state, by
      match i with
      | 0 => rfl
      | 1 => rfl⟩)
    [1, 0] (fun i => by
      match i with
      | 0 => decide
      | 1 => decide)

/-- C4, witness: a table on top of the stack is accepted and referenced, the
number 7 is rejected with the type-assertion error. -/
theorem from_index_checks_table_witness :
    (∃ t s', table_core.from_index (lua_push sample_state (.table 1)) (-1) = .ok (t, s') ∧
      registry_get s' t.ref = .table 1 ∧ s'.stack = (lua_push sample_state (.table 1)).stack ∧
      s'.heap = sample_state.heap ∧ s'.globals = sample_state.globals) ∧
    ∃ actual, table_core.from_index sample_state (-1) = .error (.type_error .table actual) :=
  ⟨(from_index_checks_table (lua_push sample_state (.table 1)) (-1)).2.1 1 rfl,
    ((from_index_checks_table sample_state (-1)).1 (.number 7) (by decide)).mpr
      (fun _ => by simp)⟩

end sol
